/-
  Verification of the ChoreKeeper subsystem of nodee (chorekeeper.cpp).

  The definitions below are a shallow embedding of the C++ source:
  * the 8-slot thrashing window and its per-cycle shift (ChoreKeeper::ChoreKeeper,
    ChoreKeeper::detectThrashing, ChoreKeeper::isThrashing, the kill cool-down in
    ChoreKeeper::start),
  * the momentary verdict (ChoreKeeper::oneBitOfThrashing),
  * the /proc/vmstat reader (ChoreKeeper::readProcVmstat),
  * the /proc/<pid>/stat parser (ChoreKeeper::parseProcStat) together with the
    per-line insertion into the per-cycle view (ChoreKeeper::scanProcesses),
  * the ancestry rollup and the writeback into the managed-process registry
    (ChoreKeeper::scanProcesses),
  * the five victim-selection policies (furthestOverPeak, furthestOverExpected,
    thrashingMost, leastValuable, biggest) and the kill step of start().

  C++ machine integers are modelled as Int (the code only compares and adds;
  no claim involves values near the int overflow boundary).
-/
import Mathlib

namespace ChoreKeeper

/-! ### The thrashing window

The C++ member is `bool thrashing[8]`.  We model it as `Nat → Bool`; only the
indices 0..7 correspond to array cells, and no operation below ever reads an
index outside 0..7 in a way that influences `isThrashing`. -/

/-- The window state.  Index 0 is the most recent momentary verdict. -/
def Window : Type := Nat → Bool

/-- `ChoreKeeper::ChoreKeeper`: the constructor runs `int n = 7; while (n > 0)
{ thrashing[n] = false; n--; }`, which initializes slots 7..1 to `false` and
leaves slot 0 uninitialized (the member has no initializer and the class has no
in-class member init).  The indeterminate initial content of slot 0 is the
parameter `b`. -/
def mkChoreKeeper (b : Bool) : Window :=
  fun n => if n = 0 then b else false

/-- One `detectThrashing` cycle: `thrashing[n] = thrashing[n-1]` for n = 7..1,
then `thrashing[0] = verdict`. -/
def detectStep (w : Window) (v : Bool) : Window :=
  fun n => if n = 0 then v else w (n - 1)

/-- `ChoreKeeper::isThrashing`: true iff slots 0..7 are all true. -/
def isThrashing (w : Window) : Bool :=
  (List.range 8).all (fun n => w n)

/-- The post-kill cool-down in `ChoreKeeper::start`: `thrashing[0] = false`. -/
def killClear (w : Window) : Window :=
  fun n => if n = 0 then false else w n

/-- Run a sequence of `detectThrashing` cycles with the given momentary
verdicts, oldest verdict first. -/
def runCycles (w : Window) (vs : List Bool) : Window :=
  vs.foldl detectStep w

theorem runCycles_nil (w : Window) : runCycles w [] = w := rfl

theorem runCycles_cons (w : Window) (v : Bool) (vs : List Bool) :
    runCycles w (v :: vs) = runCycles (detectStep w v) vs := rfl

/-- After `vs.length` cycles, slot `m + vs.length` holds what slot `m` held
before the cycles ran. -/
theorem runCycles_slot (vs : List Bool) (w : Window) (m : Nat) :
    runCycles w vs (m + vs.length) = w m := by
  induction vs generalizing w m with
  | nil => rfl
  | cons v vs ih =>
      rw [runCycles_cons]
      have h : m + (v :: vs).length = (m + 1) + vs.length := by
        simp [List.length_cons]; omega
      rw [h, ih (detectStep w v) (m + 1)]
      simp [detectStep]

/-- Claim C1 (code_bug evaluation): slot 0 of the window is left uninitialized
by the constructor.  If the indeterminate bit happens to be `true`, then seven
consecutive true momentary verdicts after construction already make
`isThrashing` true — a kill can be issued after only 7 cycles, violating the
claimed 8-cycle minimum.  With the evidently intended all-false initialization
(`mkChoreKeeper false`), seven cycles do not suffice. -/
theorem c1_uninitialized_slot_breaks_eight_cycle_minimum :
    isThrashing (runCycles (mkChoreKeeper true) (List.replicate 7 true)) = true ∧
    isThrashing (runCycles (mkChoreKeeper false) (List.replicate 7 true)) = false := by
  constructor <;> decide

/-- Claim C2: after a kill forces slot 0 to false, `isThrashing` is false for
at least the next 7 cycles, whatever momentary verdicts those cycles produce:
the forced-false bit sits at index `vs.length ≤ 7` of the window. -/
theorem c2_cooldown_after_kill (w : Window) (vs : List Bool)
    (h1 : 1 ≤ vs.length) (h7 : vs.length ≤ 7) :
    isThrashing (runCycles (killClear w) vs) = false := by
  have hslot : runCycles (killClear w) vs (0 + vs.length) = killClear w 0 :=
    runCycles_slot vs (killClear w) 0
  have hfalse : runCycles (killClear w) vs vs.length = false := by
    simpa [killClear] using hslot
  unfold isThrashing
  by_contra hall
  have hall' : (List.range 8).all (fun n => runCycles (killClear w) vs n) = true := by
    revert hall
    cases (List.range 8).all (fun n => runCycles (killClear w) vs n) <;> simp
  have hmem : vs.length ∈ List.range 8 := by
    simp [List.mem_range]; omega
  have := List.all_eq_true.mp hall' vs.length hmem
  simp [hfalse] at this

/-- Witness for C2 at a concrete input: an all-true window, then three
all-true cycles after the kill. -/
theorem c2_cooldown_after_kill_witness :
    (1 ≤ ([true, true, true] : List Bool).length ∧
      ([true, true, true] : List Bool).length ≤ 7) ∧
    isThrashing (runCycles (killClear (fun _ => true)) [true, true, true]) = false :=
  ⟨⟨by decide, by decide⟩,
    c2_cooldown_after_kill (fun _ => true) [true, true, true] (by decide) (by decide)⟩

/-! ### The momentary verdict -/

/-- `ChoreKeeper::oneBitOfThrashing`, translated literally from the source. -/
def oneBitOfThrashing (nr_free_pages pgmajfault pgpgout : Int) : Bool :=
  -- rule 1. if we have megabytes of unused RAM, we can't be thrashing.
  if nr_free_pages > 5000 then false
  -- rule 2. if we're paging in anything, we are thrashing.
  else if pgmajfault > 3 then true
  -- rule 3. if we aren't writing, we aren't thrashing.
  else if pgpgout < 3 then false
  else true

/-- The four-rule reference of spec §4.3, written from the spec's words (for
comparison against `oneBitOfThrashing`, which is written from the source). -/
def momentaryVerdictSpec (nr_free_pages pgmajfault pgpgout : Int) : Bool :=
  if nr_free_pages > 5000 then false
  else if pgmajfault > 3 then true
  else if pgpgout < 3 then false
  else true

/-- Claim C6: the momentary verdict agrees with the four-rule reference on all
integer counter values, and all-zero counters (absent signals) give `false`. -/
theorem c6_momentary_verdict_matches_spec :
    (∀ a b c : Int, oneBitOfThrashing a b c = momentaryVerdictSpec a b c) ∧
    oneBitOfThrashing 0 0 0 = false := by
  constructor
  · intro a b c; rfl
  · decide

/-! ### Character classes and tokenization

`readProcVmstat` tokenizes with `boost::char_separator<char>(" ")`: the single
space is a dropped delimiter and empty tokens are discarded.  `parseProcStat`
uses `boost::tokenizer<>`, whose default `char_delimiters_separator<char>`
drops whitespace and (with the default `return_delims = false`) also drops
punctuation characters, both acting as token separators. -/

/-- C-locale `isspace`. -/
def isSpaceC (c : Char) : Bool :=
  c = ' ' ∨ c = '\t' ∨ c = '\n' ∨ c = '\x0b' ∨ c = '\x0c' ∨ c = '\r'

/-- C-locale `ispunct`: printable, not alphanumeric, not space. -/
def isPunctC (c : Char) : Bool :=
  (33 ≤ c.toNat ∧ c.toNat ≤ 47) ∨ (58 ≤ c.toNat ∧ c.toNat ≤ 64) ∨
    (91 ≤ c.toNat ∧ c.toNat ≤ 96) ∨ (123 ≤ c.toNat ∧ c.toNat ≤ 126)

/-- Split a character list at delimiters chosen by `p`, dropping the
delimiters and empty tokens (the behaviour of both boost tokenizers used by
the source, for their respective delimiter sets).  `acc` is the reversed
current token. -/
def splitByAux (p : Char → Bool) : List Char → List Char → List (List Char)
  | [], acc => if acc = [] then [] else [acc.reverse]
  | c :: rest, acc =>
      if p c then
        if acc = [] then splitByAux p rest []
        else acc.reverse :: splitByAux p rest []
      else splitByAux p rest (c :: acc)

def splitBy (p : Char → Bool) (l : List Char) : List (List Char) :=
  splitByAux p l []

/-- `boost::lexical_cast<int>`: strict full-string parse of an optionally
signed decimal integer; fails on anything else.  (Overflow is not modelled;
no claim involves values near the int boundary.) -/
def digitVal (c : Char) : Option Nat :=
  if '0' ≤ c ∧ c ≤ '9' then some (c.toNat - 48) else none

def parseDigitsAux : List Char → Nat → Option Nat
  | [], acc => some acc
  | c :: rest, acc =>
      match digitVal c with
      | none => none
      | some d => parseDigitsAux rest (acc * 10 + d)

def lexicalCastInt (cs : List Char) : Option Int :=
  match cs with
  | [] => none
  | c :: rest =>
      if c = '-' then
        if rest = [] then none
        else (parseDigitsAux rest 0).map (fun n => -(n : Int))
      else if c = '+' then
        if rest = [] then none
        else (parseDigitsAux rest 0).map (fun n => (n : Int))
      else (parseDigitsAux (c :: rest) 0).map (fun n => (n : Int))

/-! ### The vmstat reader (`ChoreKeeper::readProcVmstat`) -/

/-- One line of `readProcVmstat`'s loop body.  The state is
`(nr_free_pages, pgmajfault, pgpgout)`.  Empty lines are skipped.  For a
nonempty line the code reads the first token as the name, unconditionally
lexical_casts the second token, and then checks the name against the three
recognized counters.  A failing cast throws `bad_lexical_cast`, which
propagates out of `readProcVmstat` (modelled as `.error`).  A nonempty line
with fewer than two tokens dereferences the end token iterator, which is a
program failure; it is likewise modelled as `.error` (no claim depends on that
branch). -/
def readVmstatTokens (st : Int × Int × Int) :
    List (List Char) → Except Unit (Int × Int × Int)
  | [] => .error ()
  | [_] => .error ()
  | n :: v :: _ =>
      match lexicalCastInt v with
      | none => .error ()
      | some x =>
          let a := if n = "nr_free_pages".toList then x else st.1
          let b := if n = "pgmajfault".toList then x else st.2.1
          let c := if n = "pgpgout".toList then x else st.2.2
          .ok (a, b, c)

def readVmstatLine (st : Int × Int × Int) (line : List Char) :
    Except Unit (Int × Int × Int) :=
  if line = [] then .ok st
  else readVmstatTokens st (splitBy isSpaceC line)

/-- `ChoreKeeper::readProcVmstat` over the file's lines, starting from the
all-zero counters the function initializes. -/
def readProcVmstatFrom : Int × Int × Int → List (List Char) → Except Unit (Int × Int × Int)
  | st, [] => .ok st
  | st, l :: ls =>
      match readVmstatLine st l with
      | .error e => .error e
      | .ok st' => readProcVmstatFrom st' ls

def readProcVmstat (lines : List (List Char)) : Except Unit (Int × Int × Int) :=
  readProcVmstatFrom (0, 0, 0) lines

/-- Claim C8 (counterexample): an unrecognized line whose value field is not
an integer does affect the reader's result — the whole sample is thrown away
before `nr_free_pages` is ever seen — contradicting "lines whose first token
is not one of the three names have no effect, whatever their value field
contains". -/
theorem c8_unrecognized_line_not_ignored :
    readProcVmstat ["foo bar".toList, "nr_free_pages 9999".toList] = .error () ∧
    readProcVmstat ["nr_free_pages 9999".toList] = .ok (9999, 0, 0) := by
  constructor <;> rfl

/-- A well-formed token: nonempty and free of the delimiter characters of the
given class. -/
def isTokenFor (p : Char → Bool) (l : List Char) : Bool :=
  !l.isEmpty && l.all (fun c => !(p c))

theorem splitByAux_token (p : Char → Bool) (t : List Char)
    (ht : t.all (fun c => !(p c)) = true) :
    ∀ r acc, splitByAux p (t ++ r) acc = splitByAux p r (t.reverse ++ acc) := by
  induction t with
  | nil => intro r acc; simp
  | cons c t ih =>
      intro r acc
      simp only [List.all_cons, Bool.and_eq_true] at ht
      have hc : p c = false := by
        revert ht; cases p c <;> simp
      have hstep : splitByAux p (c :: (t ++ r)) acc = splitByAux p (t ++ r) (c :: acc) := by
        simp [splitByAux, hc]
      simp only [List.cons_append]
      rw [hstep, ih ht.2 r (c :: acc)]
      simp

theorem splitByAux_delim (p : Char → Bool) (d : Char) (hd : p d = true)
    (r : List Char) (acc : List Char) :
    splitByAux p (d :: r) acc =
      if acc = [] then splitByAux p r [] else acc.reverse :: splitByAux p r [] := by
  simp [splitByAux, hd]

/-- Joining token lists with single spaces, as they appear in a text line. -/
def joinSp : List (List Char) → List Char
  | [] => []
  | [t] => t
  | t :: ts => t ++ ' ' :: joinSp ts

theorem splitBy_joinSp (p : Char → Bool) (hs : p ' ' = true) :
    ∀ parts : List (List Char), (∀ t ∈ parts, isTokenFor p t = true) →
      splitBy p (joinSp parts) = parts := by
  intro parts
  induction parts with
  | nil => intro _; rfl
  | cons t ts ih =>
      intro hall
      have ht := hall t (by simp)
      unfold isTokenFor at ht
      simp only [Bool.and_eq_true] at ht
      have htne : t ≠ [] := by
        have := ht.1
        cases t <;> simp_all
      cases ts with
      | nil =>
          show splitByAux p (joinSp [t]) [] = [t]
          unfold joinSp
          have := splitByAux_token p t ht.2 [] []
          simp only [List.append_nil] at this
          rw [this]
          simp [splitByAux, htne]
      | cons u us =>
          show splitByAux p (joinSp (t :: u :: us)) [] = t :: u :: us
          unfold joinSp
          rw [splitByAux_token p t ht.2 (' ' :: joinSp (u :: us)) []]
          rw [splitByAux_delim p ' ' hs]
          simp only [List.append_nil, List.reverse_reverse]
          have hrec := ih (fun x hx => hall x (by simp [hx]))
          unfold splitBy at hrec
          simp [htne, hrec]

theorem parseDigitsAux_digits (l : List Char)
    (h : l.all (fun c => decide ('0' ≤ c ∧ c ≤ '9')) = true) :
    ∀ acc, ∃ n, parseDigitsAux l acc = some n := by
  induction l with
  | nil => intro acc; exact ⟨acc, rfl⟩
  | cons c l ih =>
      intro acc
      simp only [List.all_cons, Bool.and_eq_true, decide_eq_true_eq] at h
      have hdv : digitVal c = some (c.toNat - 48) := by
        simp [digitVal, h.1]
      simp only [parseDigitsAux, hdv]
      exact ih h.2 _

/-- Nonempty all-digit strings. -/
def isDigits (l : List Char) : Bool :=
  !l.isEmpty && l.all (fun c => decide ('0' ≤ c ∧ c ≤ '9'))

theorem lexicalCastInt_digits (l : List Char) (h : isDigits l = true) :
    ∃ n : Nat, lexicalCastInt l = some (n : Int) := by
  unfold isDigits at h
  simp only [Bool.and_eq_true] at h
  cases l with
  | nil => simp at h
  | cons c rest =>
      simp only [List.all_cons, Bool.and_eq_true, decide_eq_true_eq] at h
      have hc : ('0' : Char) ≤ c ∧ c ≤ '9' := h.2.1
      have hnm : c ≠ '-' := by
        intro he; subst he; revert hc; decide
      have hnp : c ≠ '+' := by
        intro he; subst he; revert hc; decide
      obtain ⟨n, hn⟩ := parseDigitsAux_digits (c :: rest)
        (by simp only [List.all_cons, Bool.and_eq_true, decide_eq_true_eq]
            exact ⟨hc, h.2.2⟩) 0
      refine ⟨n, ?_⟩
      simp [lexicalCastInt, hnm, hnp, hn]

theorem readProcVmstatFrom_append (st : Int × Int × Int)
    (l1 l2 : List (List Char)) :
    readProcVmstatFrom st (l1 ++ l2) =
      match readProcVmstatFrom st l1 with
      | .error e => .error e
      | .ok st' => readProcVmstatFrom st' l2 := by
  induction l1 generalizing st with
  | nil => simp [readProcVmstatFrom]
  | cons l ls ih =>
      simp only [List.cons_append, readProcVmstatFrom]
      cases readVmstatLine st l with
      | error e => rfl
      | ok st' => exact ih st'

/-- Every successful line step either leaves the counters untouched (empty
line) or is a two-plus-token line whose second token parses, updating exactly
the counter named by the first token. -/
theorem readVmstatLine_shape (st st' : Int × Int × Int) (l : List Char)
    (hl : readVmstatLine st l = .ok st') :
    st' = st ∨
    ∃ n v vs' x, splitBy isSpaceC l = n :: v :: vs' ∧
      lexicalCastInt v = some x ∧
      st' = ((if n = "nr_free_pages".toList then x else st.1),
             (if n = "pgmajfault".toList then x else st.2.1),
             (if n = "pgpgout".toList then x else st.2.2)) := by
  unfold readVmstatLine at hl
  by_cases hle : l = []
  · rw [if_pos hle] at hl
    cases hl
    exact Or.inl rfl
  · rw [if_neg hle] at hl
    cases hsp : splitBy isSpaceC l with
    | nil => rw [hsp] at hl; simp [readVmstatTokens] at hl
    | cons n vs =>
        rw [hsp] at hl
        cases vs with
        | nil => simp [readVmstatTokens] at hl
        | cons v vs' =>
            cases hlc : lexicalCastInt v with
            | none => simp [readVmstatTokens, hlc] at hl
            | some x =>
                simp only [readVmstatTokens, hlc] at hl
                cases hl
                exact Or.inr ⟨n, v, vs', x, rfl, hlc, rfl⟩

/-- Claim C8 (amended): (a) a line with an unrecognized name whose value field
parses as an integer has no effect on the result; (b) a name that never
occurs as a first token leaves its counter at zero, for each of the three
counters; (c) a non-integer value field on ANY nonempty well-formed line —
recognized name or not — discards the entire sample. -/
theorem c8_amended_vmstat_reader :
    (∀ (pre post : List (List Char)) (name v : List Char),
      isTokenFor isSpaceC name = true → isTokenFor isSpaceC v = true →
      name ≠ "nr_free_pages".toList → name ≠ "pgmajfault".toList →
      name ≠ "pgpgout".toList →
      (∃ z, lexicalCastInt v = some z) →
      readProcVmstat (pre ++ (name ++ ' ' :: v) :: post) =
        readProcVmstat (pre ++ post)) ∧
    (∀ (lines : List (List Char)) (res : Int × Int × Int),
      readProcVmstat lines = .ok res →
      ((∀ l ∈ lines, ∀ rest,
          splitBy isSpaceC l ≠ "nr_free_pages".toList :: rest) → res.1 = 0) ∧
      ((∀ l ∈ lines, ∀ rest,
          splitBy isSpaceC l ≠ "pgmajfault".toList :: rest) → res.2.1 = 0) ∧
      ((∀ l ∈ lines, ∀ rest,
          splitBy isSpaceC l ≠ "pgpgout".toList :: rest) → res.2.2 = 0)) ∧
    (∀ (pre post : List (List Char)) (name v : List Char),
      isTokenFor isSpaceC name = true → isTokenFor isSpaceC v = true →
      lexicalCastInt v = none →
      readProcVmstat (pre ++ (name ++ ' ' :: v) :: post) = .error ()) := by
  have hline : ∀ (st : Int × Int × Int) (name v : List Char),
      isTokenFor isSpaceC name = true → isTokenFor isSpaceC v = true →
      readVmstatLine st (name ++ ' ' :: v) =
        match lexicalCastInt v with
        | none => .error ()
        | some x =>
            .ok ((if name = "nr_free_pages".toList then x else st.1),
                 (if name = "pgmajfault".toList then x else st.2.1),
                 (if name = "pgpgout".toList then x else st.2.2)) := by
    intro st name v hn hv
    have hne : name ++ ' ' :: v ≠ [] := by
      cases name <;> simp
    have hsplit : splitBy isSpaceC (name ++ ' ' :: v) = [name, v] := by
      have hj : name ++ ' ' :: v = joinSp [name, v] := by simp [joinSp]
      rw [hj]
      exact splitBy_joinSp isSpaceC (by decide) [name, v]
        (by intro t ht; simp at ht; rcases ht with h | h <;> subst h <;> assumption)
    unfold readVmstatLine
    rw [if_neg hne, hsplit]
    cases h : lexicalCastInt v <;> simp [readVmstatTokens, h]
  refine ⟨?_, ?_, ?_⟩
  · intro pre post name v hn hv h1 h2 h3 hz
    obtain ⟨z, hz⟩ := hz
    unfold readProcVmstat
    rw [readProcVmstatFrom_append, readProcVmstatFrom_append]
    cases readProcVmstatFrom (0, 0, 0) pre with
    | error e => rfl
    | ok st =>
        show readProcVmstatFrom st (((name ++ ' ' :: v) :: post)) =
          readProcVmstatFrom st post
        simp only [readProcVmstatFrom, hline st name v hn hv, hz]
        rw [if_neg h1, if_neg h2, if_neg h3]
  · intro lines res hok
    have main : ∀ (ls : List (List Char)) (st r : Int × Int × Int),
        readProcVmstatFrom st ls = .ok r →
        ((∀ l ∈ ls, ∀ rest,
            splitBy isSpaceC l ≠ "nr_free_pages".toList :: rest) → r.1 = st.1) ∧
        ((∀ l ∈ ls, ∀ rest,
            splitBy isSpaceC l ≠ "pgmajfault".toList :: rest) → r.2.1 = st.2.1) ∧
        ((∀ l ∈ ls, ∀ rest,
            splitBy isSpaceC l ≠ "pgpgout".toList :: rest) → r.2.2 = st.2.2) := by
      intro ls
      induction ls with
      | nil =>
          intro st r hok
          simp only [readProcVmstatFrom] at hok
          cases hok
          exact ⟨fun _ => rfl, fun _ => rfl, fun _ => rfl⟩
      | cons l ls ih =>
          intro st r hok
          simp only [readProcVmstatFrom] at hok
          cases hl : readVmstatLine st l with
          | error e => rw [hl] at hok; cases hok
          | ok st' =>
              rw [hl] at hok
              have hih := ih st' r hok
              rcases readVmstatLine_shape st st' l hl with
                heq | ⟨n, v, vs', x, hsp, _hlc, heq⟩
              · subst heq
                exact ⟨fun hn => hih.1 (fun y hy => hn y (by simp [hy])),
                       fun hn => hih.2.1 (fun y hy => hn y (by simp [hy])),
                       fun hn => hih.2.2 (fun y hy => hn y (by simp [hy]))⟩
              · refine ⟨?_, ?_, ?_⟩
                · intro hn
                  have hnn : n ≠ "nr_free_pages".toList := by
                    intro he
                    exact hn l (by simp) (v :: vs') (by rw [hsp, he])
                  have h1 := hih.1 (fun y hy => hn y (by simp [hy]))
                  rw [h1, heq]
                  show (if n = "nr_free_pages".toList then x else st.1) = st.1
                  rw [if_neg hnn]
                · intro hn
                  have hnn : n ≠ "pgmajfault".toList := by
                    intro he
                    exact hn l (by simp) (v :: vs') (by rw [hsp, he])
                  have h1 := hih.2.1 (fun y hy => hn y (by simp [hy]))
                  rw [h1, heq]
                  show (if n = "pgmajfault".toList then x else st.2.1) = st.2.1
                  rw [if_neg hnn]
                · intro hn
                  have hnn : n ≠ "pgpgout".toList := by
                    intro he
                    exact hn l (by simp) (v :: vs') (by rw [hsp, he])
                  have h1 := hih.2.2 (fun y hy => hn y (by simp [hy]))
                  rw [h1, heq]
                  show (if n = "pgpgout".toList then x else st.2.2) = st.2.2
                  rw [if_neg hnn]
    have hm := main lines (0, 0, 0) res hok
    exact ⟨fun h => hm.1 h, fun h => hm.2.1 h, fun h => hm.2.2 h⟩
  · intro pre post name v hn hv hnone
    unfold readProcVmstat
    rw [readProcVmstatFrom_append]
    cases readProcVmstatFrom (0, 0, 0) pre with
    | error e => rfl
    | ok st =>
        show readProcVmstatFrom st (((name ++ ' ' :: v) :: post)) = .error ()
        simp [readProcVmstatFrom, hline st name v hn hv, hnone]

/-- Witness for C8's amended theorem at concrete inputs: an unrecognized
`foo 7` line is dropped without effect; a file whose only line is
`pgmajfault 4` reports 0 for both `nr_free_pages` and `pgpgout`; a
non-integer value (`pgpgout x`) discards the sample. -/
theorem c8_amended_vmstat_reader_witness :
    readProcVmstat (["pgmajfault 4".toList] ++ ("foo 7".toList) :: ["pgpgout 5".toList]) =
      readProcVmstat (["pgmajfault 4".toList] ++ ["pgpgout 5".toList]) ∧
    (readProcVmstat ["pgmajfault 4".toList] = .ok (0, 4, 0) →
      ((0, 4, 0) : Int × Int × Int).1 = 0 ∧
        ((0, 4, 0) : Int × Int × Int).2.2 = 0) ∧
    readProcVmstat ([] ++ ("pgpgout".toList ++ ' ' :: "x".toList) :: []) = .error () := by
  refine ⟨?_, ?_, ?_⟩
  · exact c8_amended_vmstat_reader.1 ["pgmajfault 4".toList] ["pgpgout 5".toList]
      "foo".toList "7".toList (by decide) (by decide) (by decide) (by decide)
      (by decide) ⟨7, by decide⟩
  · intro h
    have hsp : splitBy isSpaceC ("pgmajfault 4".toList) =
        ["pgmajfault".toList, "4".toList] := by decide
    have hconj := c8_amended_vmstat_reader.2.1 ["pgmajfault 4".toList] (0, 4, 0) h
    constructor
    · refine hconj.1 ?_
      intro l hl rest hcontra
      simp only [List.mem_singleton] at hl
      subst hl
      rw [hsp] at hcontra
      injection hcontra with hh _
      exact absurd hh (by decide)
    · refine hconj.2.2 ?_
      intro l hl rest hcontra
      simp only [List.mem_singleton] at hl
      subst hl
      rw [hsp] at hcontra
      injection hcontra with hh _
      exact absurd hh (by decide)
  · exact c8_amended_vmstat_reader.2.2 [] [] "pgpgout".toList "x".toList
      (by decide) (by decide) (by decide)

/-! ### The stat-line parser (`ChoreKeeper::parseProcStat`)

A `RunningProcess` holds the fields parsed from one /proc/<pid>/stat line.
`RunningProcess()` in the source is value-initialization of a plain struct,
which zeroes every field (`emptyRP`). -/

structure RunningProcess where
  pid : Int
  ppid : Int
  majflt : Int
  rss : Int
deriving DecidableEq, Repr

def emptyRP : RunningProcess := ⟨0, 0, 0, 0⟩

/-- The paren-neutralization inner loop of `parseProcStat`: starting at the
first `(`, every character is overwritten with `'0'` until the first
unescaped `)` (inclusive); a backslash consumes two characters.  A trailing
backslash at the end of the line makes the second write target the string's
final null, which has no modelled effect. -/
def neutAux : List Char → List Char
  | [] => []
  | c :: rest =>
      if c = ')' then '0' :: rest
      else if c = '\\' then
        match rest with
        | [] => ['0']
        | _ :: rest2 => '0' :: '0' :: neutAux rest2
      else '0' :: neutAux rest

/-- The leading scan of `parseProcStat`: skip to the first `(`, then
neutralize. -/
def neutralize : List Char → List Char
  | [] => []
  | c :: rest => if c = '(' then neutAux (c :: rest) else c :: neutralize rest

/-- Delimiters of the default `boost::tokenizer<>`
(`char_delimiters_separator<char>` with `return_delims = false`): whitespace
and punctuation are dropped separators. -/
def isDelimT (c : Char) : Bool := isSpaceC c || isPunctC c

def tokenizeDefault (l : List Char) : List (List Char) := splitBy isDelimT l

/-- The positional field extraction of `parseProcStat` over the token stream.
Index ↔ iterator correspondence: 0 = pid; 1 = the neutralized name; 2 = state;
3 = ppid; 4..10 = pgrp, session, tty, tpgid, flags, minflt, cminflt;
11 = majflt; 12 = cmajflt; 13..22 = utime, stime, cutime, cstime, priority,
nice, numthreads, itrealvalue, starttime, vsize; 23 = rss.  `t == end` at a
checked position returns a fresh value-initialized `RunningProcess()`; a
failed `lexical_cast` throws (modelled as `.error`).  (Advancing the iterator
past the end between two checkpoints asserts inside boost; it is modelled as
staying at the end.) -/
def parseProcStatToks (toks : List (List Char)) : Except Unit RunningProcess :=
  match toks.get? 0 with
  | none => .ok emptyRP
  | some t0 =>
      match lexicalCastInt t0 with
      | none => .error ()
      | some pid =>
          match toks.get? 3 with
          | none => .ok emptyRP
          | some t3 =>
              match lexicalCastInt t3 with
              | none => .error ()
              | some ppid =>
                  match toks.get? 11 with
                  | none => .ok emptyRP
                  | some t11 =>
                      match lexicalCastInt t11 with
                      | none => .error ()
                      | some majflt =>
                          match toks.get? 12 with
                          | none => .ok emptyRP
                          | some t12 =>
                              match lexicalCastInt t12 with
                              | none => .error ()
                              | some cmajflt =>
                                  match toks.get? 23 with
                                  | none => .ok emptyRP
                                  | some t23 =>
                                      match lexicalCastInt t23 with
                                      | none => .error ()
                                      | some rss =>
                                          .ok ⟨pid, ppid, majflt + cmajflt, rss⟩

def parseProcStat (line : List Char) : Except Unit RunningProcess :=
  parseProcStatToks (tokenizeDefault (neutralize line))

/-- `observed[r.pid] = r` on the per-cycle view (`std::map` assignment:
overwrite if present, insert otherwise). -/
def mapInsert (observed : List (Int × RunningProcess)) (k : Int)
    (r : RunningProcess) : List (Int × RunningProcess) :=
  if (observed.find? (fun e => decide (e.1 = k))).isSome then
    observed.map (fun e => if e.1 = k then (k, r) else e)
  else observed ++ [(k, r)]

/-- The per-line step of `ChoreKeeper::scanProcesses`: parse the stat line;
on `bad_lexical_cast` the record is skipped, otherwise `observed[r.pid] = r`. -/
def observeLine (observed : List (Int × RunningProcess)) (line : List Char) :
    List (Int × RunningProcess) :=
  match parseProcStat line with
  | .error _ => observed
  | .ok r => mapInsert observed r.pid r

/-- The token at a checked position, when present, parses as an integer
(vacuously true when the position is past the end). -/
def castOkAt (toks : List (List Char)) (i : Nat) : Bool :=
  match toks.get? i with
  | none => true
  | some t => (lexicalCastInt t).isSome

/-- Claim C4 (counterexample): on a line where the tokenizer exhausts before
the pid (e.g. the empty line obtained when a stat file vanishes mid-cycle),
`parseProcStat` does NOT discard the record: it returns a value-initialized
`RunningProcess`, and `scanProcesses` inserts it into the view under pid 0 —
exactly the "entry with zeroed fields" the claim rules out. -/
theorem c4_truncated_record_is_inserted :
    parseProcStat [] = .ok emptyRP ∧
    observeLine [] [] = [(0, emptyRP)] ∧
    ([(0, emptyRP)] : List (Int × RunningProcess)) ≠ [] := by
  exact ⟨rfl, rfl, by simp⟩

/-- Claim C4 (amended): only integer-parse failures (`bad_lexical_cast`)
discard the record; whenever the tokenizer exhausts before a required field —
at the pid, ppid, majflt, cmajflt or rss checkpoint, i.e. fewer than 24
tokens, with the checked tokens that do exist parsing as integers — the
parser instead returns a value-initialized record, which the sampler inserts
into the view under pid 0. -/
theorem c4_amended_parse_failure_handling :
    (∀ (observed : List (Int × RunningProcess)) (line : List Char),
      parseProcStat line = .error () → observeLine observed line = observed) ∧
    (∀ (observed : List (Int × RunningProcess)) (line : List Char),
      (tokenizeDefault (neutralize line)).length ≤ 23 →
      castOkAt (tokenizeDefault (neutralize line)) 0 = true →
      castOkAt (tokenizeDefault (neutralize line)) 3 = true →
      castOkAt (tokenizeDefault (neutralize line)) 11 = true →
      castOkAt (tokenizeDefault (neutralize line)) 12 = true →
      parseProcStat line = .ok emptyRP ∧
        observeLine observed line = mapInsert observed 0 emptyRP) := by
  have hcast : ∀ (toks : List (List Char)) (i : Nat) (t : List Char),
      castOkAt toks i = true → toks.get? i = some t →
      ∃ z, lexicalCastInt t = some z := by
    intro toks i t hok hget
    unfold castOkAt at hok
    rw [hget] at hok
    have hok2 : (lexicalCastInt t).isSome = true := hok
    cases hv : lexicalCastInt t with
    | none => rw [hv] at hok2; simp at hok2
    | some z => exact ⟨z, rfl⟩
  constructor
  · intro observed line h
    unfold observeLine
    rw [h]
  · intro observed line hlen h0 h3 h11 h12
    have hp : parseProcStat line = .ok emptyRP := by
      have hg23 : (tokenizeDefault (neutralize line)).get? 23 = none :=
        List.get?_eq_none.mpr (by omega)
      unfold parseProcStat
      cases hg0 : (tokenizeDefault (neutralize line)).get? 0 with
      | none => simp only [parseProcStatToks, hg0]
      | some t0 =>
          obtain ⟨v0, hv0⟩ := hcast _ 0 t0 h0 hg0
          cases hg3 : (tokenizeDefault (neutralize line)).get? 3 with
          | none => simp only [parseProcStatToks, hg0, hv0, hg3]
          | some t3 =>
              obtain ⟨v3, hv3⟩ := hcast _ 3 t3 h3 hg3
              cases hg11 : (tokenizeDefault (neutralize line)).get? 11 with
              | none => simp only [parseProcStatToks, hg0, hv0, hg3, hv3, hg11]
              | some t11 =>
                  obtain ⟨v11, hv11⟩ := hcast _ 11 t11 h11 hg11
                  cases hg12 : (tokenizeDefault (neutralize line)).get? 12 with
                  | none =>
                      simp only [parseProcStatToks, hg0, hv0, hg3, hv3, hg11,
                        hv11, hg12]
                  | some t12 =>
                      obtain ⟨v12, hv12⟩ := hcast _ 12 t12 h12 hg12
                      simp only [parseProcStatToks, hg0, hv0, hg3, hv3, hg11,
                        hv11, hg12, hv12, hg23]
    refine ⟨hp, ?_⟩
    unfold observeLine
    rw [hp]
    rfl


/-- Witness for C4's amended theorem at concrete inputs: the line `x` fails
`lexical_cast` at the pid and is skipped; the line `123` exhausts the
tokenizer at the ppid checkpoint and yields a zeroed record inserted under
pid 0. -/
theorem c4_amended_parse_failure_handling_witness :
    observeLine [(5, emptyRP)] ("x".toList) = [(5, emptyRP)] ∧
    (parseProcStat ("123".toList) = .ok emptyRP ∧
      observeLine [(5, emptyRP)] ("123".toList) =
        mapInsert [(5, emptyRP)] 0 emptyRP) :=
  ⟨c4_amended_parse_failure_handling.1 [(5, emptyRP)] ("x".toList) rfl,
    c4_amended_parse_failure_handling.2 [(5, emptyRP)] ("123".toList)
      (by decide) (by decide) (by decide) (by decide) (by decide)⟩

/-! ### Valid stat lines (claim C7)

A valid line is `<pid> (<name>) <state> <ppid> <field5> ... <field24> ...`
where the name may contain spaces and backslash-escaped right parens.  The
name is modelled as a list of units: ordinary characters (anything except an
unescaped `)` or a stray backslash) and the two-character escape `\)`. -/

inductive NameUnit where
  | plain (c : Char)
  | escParen
deriving DecidableEq, Repr

def NameUnit.chars : NameUnit → List Char
  | .plain c => [c]
  | .escParen => ['\\', ')']

def nameOfUnits (us : List NameUnit) : List Char :=
  (us.map NameUnit.chars).flatten

def goodUnit : NameUnit → Bool
  | .plain c => decide (c ≠ ')') && decide (c ≠ '\\')
  | .escParen => true

/-- A synthesized stat line: pid, the parenthesized name, then the remaining
space-separated fields (state, ppid, fields 5..24, trailing fields). -/
def mkStatLine (pidS : List Char) (us : List NameUnit)
    (parts : List (List Char)) : List Char :=
  pidS ++ ' ' :: '(' :: (nameOfUnits us ++ ')' :: ' ' :: joinSp parts)

theorem neutAux_close (r : List Char) : neutAux (')' :: r) = '0' :: r := by
  unfold neutAux
  simp

theorem neutAux_escPair (d : Char) (r : List Char) :
    neutAux ('\\' :: d :: r) = '0' :: '0' :: neutAux r := by
  simp [neutAux]

theorem neutAux_plainChar (c : Char) (h1 : c ≠ ')') (h2 : c ≠ '\\')
    (r : List Char) : neutAux (c :: r) = '0' :: neutAux r := by
  unfold neutAux
  simp [h1, h2]
  rw [neutAux.eq_def]

theorem neutralize_noparen (l : List Char) (h : ∀ c ∈ l, c ≠ '(') :
    ∀ r, neutralize (l ++ r) = l ++ neutralize r := by
  induction l with
  | nil => intro r; rfl
  | cons c l ih =>
      intro r
      have hc : c ≠ '(' := h c (by simp)
      have ihr := ih (fun x hx => h x (by simp [hx])) r
      have hstep : neutralize (c :: (l ++ r)) = c :: neutralize (l ++ r) := by
        simp [neutralize, hc]
      show neutralize (c :: (l ++ r)) = (c :: l) ++ neutralize r
      rw [hstep, ihr]
      rfl

theorem neutAux_name (us : List NameUnit) (hus : ∀ u ∈ us, goodUnit u = true) :
    ∀ r, neutAux (nameOfUnits us ++ ')' :: r) =
      List.replicate ((nameOfUnits us).length + 1) '0' ++ r := by
  induction us with
  | nil =>
      intro r
      have h0 : nameOfUnits ([] : List NameUnit) = [] := rfl
      rw [h0, List.nil_append, neutAux_close]
      rfl
  | cons u us ih =>
      intro r
      have ihr := ih (fun x hx => hus x (by simp [hx])) r
      cases u with
      | plain c =>
          have hu : goodUnit (NameUnit.plain c) = true := hus _ (by simp)
          have hc : c ≠ ')' ∧ c ≠ '\\' := by
            revert hu
            unfold goodUnit
            simp
          have hexp : nameOfUnits (NameUnit.plain c :: us) = c :: nameOfUnits us := rfl
          rw [hexp, List.cons_append, neutAux_plainChar c hc.1 hc.2, ihr]
          simp [List.replicate_succ]
      | escParen =>
          have hexp : nameOfUnits (NameUnit.escParen :: us) =
              '\\' :: ')' :: nameOfUnits us := rfl
          rw [hexp, List.cons_append, List.cons_append, neutAux_escPair, ihr]
          simp [List.replicate_succ]

set_option maxHeartbeats 1600000

/-- Claim C7: for every valid stat line — parenthesized name with spaces and
escaped right parens allowed — the parser returns a record whose pid is the
integer value of field 1 and whose ppid is the integer value of field 4. -/
theorem c7_valid_line_pid_ppid
    (pidS stateS ppidS a5 a6 a7 a8 a9 a10 a11 majS cmajS
      b14 b15 b16 b17 b18 b19 b20 b21 b22 b23 rssS : List Char)
    (us : List NameUnit) (tail : List (List Char))
    (pv ppv mv cmv rv : Int)
    (hus : ∀ u ∈ us, goodUnit u = true)
    (htok : ∀ t ∈ pidS :: stateS :: ppidS :: a5 :: a6 :: a7 :: a8 :: a9 ::
      a10 :: a11 :: majS :: cmajS :: b14 :: b15 :: b16 :: b17 :: b18 :: b19 ::
      b20 :: b21 :: b22 :: b23 :: rssS :: tail, isTokenFor isDelimT t = true)
    (hpv : lexicalCastInt pidS = some pv)
    (hppv : lexicalCastInt ppidS = some ppv)
    (hmv : lexicalCastInt majS = some mv)
    (hcmv : lexicalCastInt cmajS = some cmv)
    (hrv : lexicalCastInt rssS = some rv) :
    parseProcStat (mkStatLine pidS us
        ([stateS, ppidS, a5, a6, a7, a8, a9, a10, a11, majS, cmajS,
          b14, b15, b16, b17, b18, b19, b20, b21, b22, b23, rssS] ++ tail)) =
      .ok ⟨pv, ppv, mv + cmv, rv⟩ := by
  have hpid_tok : isTokenFor isDelimT pidS = true := htok pidS (by simp)
  have hpid_nop : ∀ c ∈ pidS ++ [' '], c ≠ '(' := by
    intro c hc
    rcases List.mem_append.mp hc with hm | hm
    · unfold isTokenFor at hpid_tok
      simp only [Bool.and_eq_true, List.all_eq_true] at hpid_tok
      have hnd := hpid_tok.2 c hm
      intro he
      subst he
      revert hnd
      decide
    · simp only [List.mem_singleton] at hm
      subst hm
      decide
  have hzt : isTokenFor isDelimT
      (List.replicate ((nameOfUnits us).length + 2) '0') = true := by
    unfold isTokenFor
    simp only [Bool.and_eq_true, List.all_eq_true]
    constructor
    · simp [List.replicate_succ]
    · intro c hc
      have hc0 : c = '0' := List.eq_of_mem_replicate hc
      subst hc0
      decide
  have hneut : neutralize (mkStatLine pidS us
        ([stateS, ppidS, a5, a6, a7, a8, a9, a10, a11, majS, cmajS,
          b14, b15, b16, b17, b18, b19, b20, b21, b22, b23, rssS] ++ tail)) =
      joinSp (pidS :: List.replicate ((nameOfUnits us).length + 2) '0' ::
        ([stateS, ppidS, a5, a6, a7, a8, a9, a10, a11, majS, cmajS,
          b14, b15, b16, b17, b18, b19, b20, b21, b22, b23, rssS] ++ tail)) := by
    unfold mkStatLine
    have hassoc : pidS ++ ' ' :: '(' :: (nameOfUnits us ++ ')' :: ' ' ::
        joinSp ([stateS, ppidS, a5, a6, a7, a8, a9, a10, a11, majS, cmajS,
          b14, b15, b16, b17, b18, b19, b20, b21, b22, b23, rssS] ++ tail)) =
        (pidS ++ [' ']) ++ ('(' :: (nameOfUnits us ++ ')' :: ' ' ::
        joinSp ([stateS, ppidS, a5, a6, a7, a8, a9, a10, a11, majS, cmajS,
          b14, b15, b16, b17, b18, b19, b20, b21, b22, b23, rssS] ++ tail))) := by
      simp
    rw [hassoc, neutralize_noparen (pidS ++ [' ']) hpid_nop]
    have hopen : neutralize ('(' :: (nameOfUnits us ++ ')' :: ' ' ::
        joinSp ([stateS, ppidS, a5, a6, a7, a8, a9, a10, a11, majS, cmajS,
          b14, b15, b16, b17, b18, b19, b20, b21, b22, b23, rssS] ++ tail))) =
        neutAux ('(' :: (nameOfUnits us ++ ')' :: ' ' ::
        joinSp ([stateS, ppidS, a5, a6, a7, a8, a9, a10, a11, majS, cmajS,
          b14, b15, b16, b17, b18, b19, b20, b21, b22, b23, rssS] ++ tail))) := by
      unfold neutralize
      simp
    rw [hopen, neutAux_plainChar '(' (by decide) (by decide),
      neutAux_name us hus]
    have hj : joinSp (pidS :: List.replicate ((nameOfUnits us).length + 2) '0' ::
        ([stateS, ppidS, a5, a6, a7, a8, a9, a10, a11, majS, cmajS,
          b14, b15, b16, b17, b18, b19, b20, b21, b22, b23, rssS] ++ tail)) =
        pidS ++ ' ' :: (List.replicate ((nameOfUnits us).length + 2) '0' ++
          ' ' :: joinSp ([stateS, ppidS, a5, a6, a7, a8, a9, a10, a11, majS, cmajS,
          b14, b15, b16, b17, b18, b19, b20, b21, b22, b23, rssS] ++ tail)) := rfl
    rw [hj]
    simp [List.replicate_succ]
  have htoks : tokenizeDefault (neutralize (mkStatLine pidS us
        ([stateS, ppidS, a5, a6, a7, a8, a9, a10, a11, majS, cmajS,
          b14, b15, b16, b17, b18, b19, b20, b21, b22, b23, rssS] ++ tail))) =
      pidS :: List.replicate ((nameOfUnits us).length + 2) '0' ::
        ([stateS, ppidS, a5, a6, a7, a8, a9, a10, a11, majS, cmajS,
          b14, b15, b16, b17, b18, b19, b20, b21, b22, b23, rssS] ++ tail) := by
    rw [hneut]
    unfold tokenizeDefault
    refine splitBy_joinSp isDelimT (by decide) _ ?_
    intro t ht
    rcases List.mem_cons.mp ht with h | ht2
    · rw [h]; exact hpid_tok
    rcases List.mem_cons.mp ht2 with h | ht3
    · rw [h]; exact hzt
    refine htok t ?_
    exact List.mem_cons_of_mem pidS ht3
  unfold parseProcStat
  rw [htoks]
  have g0 : (pidS :: List.replicate ((nameOfUnits us).length + 2) '0' ::
      ([stateS, ppidS, a5, a6, a7, a8, a9, a10, a11, majS, cmajS,
        b14, b15, b16, b17, b18, b19, b20, b21, b22, b23, rssS] ++ tail)).get? 0 =
      some pidS := rfl
  have g3 : (pidS :: List.replicate ((nameOfUnits us).length + 2) '0' ::
      ([stateS, ppidS, a5, a6, a7, a8, a9, a10, a11, majS, cmajS,
        b14, b15, b16, b17, b18, b19, b20, b21, b22, b23, rssS] ++ tail)).get? 3 =
      some ppidS := rfl
  have g11 : (pidS :: List.replicate ((nameOfUnits us).length + 2) '0' ::
      ([stateS, ppidS, a5, a6, a7, a8, a9, a10, a11, majS, cmajS,
        b14, b15, b16, b17, b18, b19, b20, b21, b22, b23, rssS] ++ tail)).get? 11 =
      some majS := rfl
  have g12 : (pidS :: List.replicate ((nameOfUnits us).length + 2) '0' ::
      ([stateS, ppidS, a5, a6, a7, a8, a9, a10, a11, majS, cmajS,
        b14, b15, b16, b17, b18, b19, b20, b21, b22, b23, rssS] ++ tail)).get? 12 =
      some cmajS := rfl
  have g23 : (pidS :: List.replicate ((nameOfUnits us).length + 2) '0' ::
      ([stateS, ppidS, a5, a6, a7, a8, a9, a10, a11, majS, cmajS,
        b14, b15, b16, b17, b18, b19, b20, b21, b22, b23, rssS] ++ tail)).get? 23 =
      some rssS := rfl
  simp only [parseProcStatToks, g0, hpv, g3, hppv, g11, hmv, g12, hcmv, g23, hrv]

/-- Witness for C7 at a concrete line: pid 1234, name `a b\)c`, state S,
ppid 77, majflt 2 + cmajflt 3, rss 42, one trailing field. -/
theorem c7_valid_line_pid_ppid_witness :
    parseProcStat (mkStatLine ("1234".toList)
        [NameUnit.plain 'a', NameUnit.plain ' ', NameUnit.plain 'b',
          NameUnit.escParen, NameUnit.plain 'c']
        (["S".toList, "77".toList, "5".toList, "6".toList, "7".toList,
          "8".toList, "9".toList, "10".toList, "11".toList, "2".toList,
          "3".toList, "14".toList, "15".toList, "16".toList, "17".toList,
          "18".toList, "19".toList, "20".toList, "21".toList, "22".toList,
          "23".toList, "42".toList] ++ ["99".toList])) =
      .ok ⟨1234, 77, 2 + 3, 42⟩ := by
  exact c7_valid_line_pid_ppid
    ("1234".toList) ("S".toList) ("77".toList) ("5".toList) ("6".toList)
    ("7".toList) ("8".toList) ("9".toList) ("10".toList) ("11".toList)
    ("2".toList) ("3".toList) ("14".toList) ("15".toList) ("16".toList)
    ("17".toList) ("18".toList) ("19".toList) ("20".toList) ("21".toList)
    ("22".toList) ("23".toList) ("42".toList)
    [NameUnit.plain 'a', NameUnit.plain ' ', NameUnit.plain 'b',
      NameUnit.escParen, NameUnit.plain 'c']
    (["99".toList]) 1234 77 2 3 42
    (by decide) (by decide) (by decide) (by decide) (by decide) (by decide)
    (by decide)

/-! ### Managed processes and the victim-selection policies

A managed `Process` of the external registry, with the observable fields the
ChoreKeeper reads (`pid()`, `currentRss()`, `recentPageFaults()`) and the
ServerSpec values (`spec().value()`, `spec().expectedPeakMemory()`,
`spec().expectedTypicalMemory()`) flattened into one record. -/

structure Process where
  pid : Int
  currentRss : Int
  recentPageFaults : Int
  value : Int
  expectedPeakMemory : Int
  expectedTypicalMemory : Int
deriving DecidableEq, Repr

/-- `ChoreKeeper::furthestOverPeak`: the list walk with candidate `p`. -/
def furthestOverPeakLoop : Option Process → List Process → Option Process
  | p, [] => p
  | p, m :: rest =>
      let over := m.currentRss - m.expectedPeakMemory
      let p' := match p with
        | none => if over > 0 then some m else none
        | some q =>
            if over > 0 ∧ over > q.currentRss - q.expectedPeakMemory then some m
            else some q
      furthestOverPeakLoop p' rest

def furthestOverPeak (pl : List Process) : Option Process :=
  furthestOverPeakLoop none pl

/-- `ChoreKeeper::furthestOverExpected`. -/
def furthestOverExpectedLoop : Option Process → List Process → Option Process
  | p, [] => p
  | p, m :: rest =>
      let over := m.currentRss - m.expectedTypicalMemory
      let p' := match p with
        | none => if over > 0 then some m else none
        | some q =>
            if over > 0 ∧ over > q.currentRss - q.expectedTypicalMemory then some m
            else some q
      furthestOverExpectedLoop p' rest

def furthestOverExpected (pl : List Process) : Option Process :=
  furthestOverExpectedLoop none pl

/-- `ChoreKeeper::leastValuable`: tracks the most and least valuable. -/
def leastValuableLoop :
    Option Process → Option Process → List Process →
      Option Process × Option Process
  | mx, mn, [] => (mx, mn)
  | mx, mn, m :: rest =>
      let mx' := match mx with
        | none => some m
        | some q => if q.value < m.value then some m else some q
      let mn' := match mn with
        | none => some m
        | some q => if q.value > m.value then some m else some q
      leastValuableLoop mx' mn' rest

def leastValuable (pl : List Process) : Option Process :=
  match leastValuableLoop none none pl with
  | (some mx, some mn) => if mn.value ≥ mx.value then none else some mn
  | (_, mn) => mn

/-- `ChoreKeeper::thrashingMost`.  Note the source's update condition for
`worst` compares the candidate against `least->recentPageFaults()` — the
previous iteration's minimum — not against `worst`.  The `(some w, none)`
branch is unreachable (both candidates are set on the first iteration; in the
C++ it would dereference null). -/
def thrashingMostLoop :
    Option Process → Option Process → List Process →
      Option Process × Option Process
  | worst, least, [] => (worst, least)
  | worst, least, m :: rest =>
      let worst' := match worst, least with
        | none, _ => some m
        | some w, some l =>
            if m.recentPageFaults > l.recentPageFaults then some m else some w
        | some w, none => some w
      let least' := match least with
        | none => some m
        | some l =>
            if m.recentPageFaults < l.recentPageFaults then some m else some l
      thrashingMostLoop worst' least' rest

def thrashingMost (pl : List Process) : Option Process :=
  match thrashingMostLoop none none pl with
  | (some w, some l) =>
      if l.recentPageFaults ≥ w.recentPageFaults then none else some w
  | (w, _) => w

/-- `ChoreKeeper::biggest`. -/
def biggestLoop : Option Process → List Process → Option Process
  | p, [] => p
  | p, m :: rest =>
      let p' := match p with
        | none => some m
        | some q => if m.currentRss > q.currentRss then some m else some q
      biggestLoop p' rest

def biggest (pl : List Process) : Option Process :=
  biggestLoop none pl

/-- The five-policy cascade of `ChoreKeeper::start`. -/
def selectVictim (pl : List Process) : Option Process :=
  match furthestOverPeak pl with
  | some j => some j
  | none =>
      match furthestOverExpected pl with
      | some j => some j
      | none =>
          match thrashingMost pl with
          | some j => some j
          | none =>
              match leastValuable pl with
              | some j => some j
              | none => biggest pl

/-- The per-cycle kill step of `ChoreKeeper::start`: when `isThrashing`, run
the cascade and, if it yields a victim, `kill(pid, 9)` and clear slot 0. -/
def cycleKill (w : Window) (pl : List Process) : Option Int × Window :=
  if isThrashing w then
    match selectVictim pl with
    | some jesus => (some jesus.pid, killClear w)
    | none => (none, w)
  else (none, w)

/-- A managed process with the given pid and recent page-fault count. -/
def mkProc (pid rPF : Int) : Process := ⟨pid, 0, rPF, 0, 0, 0⟩

/-- Claim C3 (code_bug evaluation): on fault counts [3, 5, 4] the code's
`thrashingMost` returns the third process (4 faults) although the strict
maximum is the second (5 faults): the update condition compares against the
running minimum instead of the running maximum, so a later smaller candidate
displaces the true maximum. -/
theorem c3_thrashing_most_not_maximum :
    thrashingMost [mkProc 1 3, mkProc 2 5, mkProc 3 4] = some (mkProc 3 4) ∧
    mkProc 2 5 ∈ [mkProc 1 3, mkProc 2 5, mkProc 3 4] ∧
    (mkProc 3 4).recentPageFaults < (mkProc 2 5).recentPageFaults := by
  refine ⟨by decide, by decide, by decide⟩

/-- Claim C10: with an empty managed-process registry every selection policy
returns null, and the kill step emits no signal and leaves the window
untouched, whatever the thrashing state. -/
theorem c10_empty_registry_no_kill (w : Window) :
    furthestOverPeak [] = none ∧ furthestOverExpected [] = none ∧
    thrashingMost [] = none ∧ leastValuable [] = none ∧ biggest [] = none ∧
    cycleKill w [] = (none, w) := by
  refine ⟨rfl, rfl, rfl, rfl, rfl, ?_⟩
  unfold cycleKill
  cases h : isThrashing w <;> rfl

/-! ### The ancestry rollup of `ChoreKeeper::scanProcesses`

The per-cycle view is the `std::map<int, RunningProcess>` `observed`, as an
association list.  Iteration order of the map is modelled by `nextKey`
(smallest key greater than the last visited one) — exactly how a `std::map`
iterator advances, including over entries inserted during the loop. -/

abbrev View := List (Int × RunningProcess)

def vlookup (s : View) (k : Int) : Option RunningProcess :=
  (s.find? (fun e => decide (e.1 = k))).map (fun e => e.2)

/-- `observed[k]` as an lvalue: `std::map::operator[]` inserts a
value-initialized entry when the key is absent. -/
def ensure (s : View) (k : Int) : View :=
  if (vlookup s k).isSome then s else s ++ [(k, emptyRP)]

/-- Read `observed[k]` right after an `ensure`. -/
def getE (s : View) (k : Int) : RunningProcess :=
  (vlookup s k).getD emptyRP

/-- In-place mutation of the entry at key `k`. -/
def updateAt (s : View) (k : Int) (f : RunningProcess → RunningProcess) : View :=
  s.map (fun e => if e.1 = k then (e.1, f e.2) else e)

/-- The inner ancestry walk of the rollup:
`while (mother && observed[mother].ppid && observed[mother].ppid != me)
    mother = observed[mother].ppid;`
The C++ loop is unbounded; `fuel` bounds the iterations the model may take and
`none` means the loop did not terminate within `fuel` steps — so
`∀ fuel, motherLoop … = none` states non-termination of the source loop.  The
view is threaded because `observed[mother]` default-inserts absent keys. -/
def motherLoop (me : Int) : Nat → View → Int → Option (View × Int)
  | 0, _, _ => none
  | fuel + 1, s, mother =>
      if mother = 0 then some (s, mother)
      else
        let s' := ensure s mother
        let r := getE s' mother
        if r.ppid = 0 ∨ r.ppid = me then some (s', mother)
        else motherLoop me fuel s' r.ppid

/-- One rollup iteration for the entry `x` (`i->second`): walk to the
attribution root, then
`if (observed[mother].pid != i->second.pid) { observed[mother].rss += i->second.rss; observed[mother].majflt += i->second.majflt; }`. -/
def rollupBody (me : Int) (wf : Nat) (s : View) (x : RunningProcess) :
    Option View :=
  match motherLoop me wf s x.pid with
  | none => none
  | some (s', mother) =>
      let s2 := ensure s' mother
      if (getE s2 mother).pid ≠ x.pid then
        some (updateAt s2 mother (fun r =>
          { r with rss := r.rss + x.rss, majflt := r.majflt + x.majflt }))
      else some s2

/-- Is key `k` strictly after the iterator position `cur`? -/
def nkPred (cur : Option Int) (k : Int) : Bool :=
  match cur with
  | none => true
  | some c => decide (c < k)

/-- The smallest key of `s` strictly greater than `cur` (any key when `cur`
is `none`): the next position of the `std::map` iterator. -/
def nextKey (s : View) (cur : Option Int) : Option Int :=
  ((s.map (fun e => e.1)).filter (nkPred cur)).foldl
    (fun acc k =>
      match acc with
      | none => some k
      | some a => if k < a then some k else some a) none

/-- The rollup iteration over the whole map (`while (i != observed.end())`),
`n` bounding the number of iterations. -/
def rollupLoop (me : Int) (wf : Nat) : Nat → View → Option Int → Option View
  | 0, _, _ => none
  | n + 1, s, cur =>
      match nextKey s cur with
      | none => some s
      | some k =>
          match vlookup s k with
          | none => some s   -- unreachable: k is drawn from the key list
          | some x =>
              match rollupBody me wf s x with
              | none => none
              | some s' => rollupLoop me wf n s' (some k)

def rollup (me : Int) (wf itf : Nat) (view : View) : Option View :=
  rollupLoop me wf itf view none

/-- The writeback of `scanProcesses`:
`(*m)->setCurrentRss(observed[(*m)->pid()].rss)` and
`(*m)->setPageFaults(observed[(*m)->pid()].majflt)`.  `operator[]` on an
absent pid yields the value-initialized record (zeros), i.e. `getD emptyRP`. -/
def writeback (s : View) (pl : List Process) : List Process :=
  pl.map (fun p =>
    { p with currentRss := ((vlookup s p.pid).getD emptyRP).rss,
             recentPageFaults := ((vlookup s p.pid).getD emptyRP).majflt })

/-- The ancestry walk as a pure function of a static view: the halting key of
the parent chain from `m`.  On well-formed views (see `c5_rollup_descendant_sums`)
the stateful `motherLoop` coincides with it. -/
def chaseSpec (view : View) (me : Int) : Nat → Int → Option Int
  | 0, _ => none
  | fuel + 1, m =>
      if m = 0 then some m
      else
        match vlookup view m with
        | none => some m
        | some r =>
            if r.ppid = 0 ∨ r.ppid = me then some m
            else chaseSpec view me fuel r.ppid

/-- A malformed two-entry view whose ppid links form a 2-cycle. -/
def cyclicView : View := [(1, ⟨1, 2, 0, 0⟩), (2, ⟨2, 1, 0, 0⟩)]

theorem motherLoop_cyclic (fuel : Nat) :
    motherLoop 100 fuel cyclicView 1 = none ∧
    motherLoop 100 fuel cyclicView 2 = none := by
  induction fuel with
  | zero => exact ⟨rfl, rfl⟩
  | succ fuel ih =>
      constructor
      · have h1 : motherLoop 100 (fuel + 1) cyclicView 1 =
            motherLoop 100 fuel cyclicView 2 := rfl
        rw [h1]; exact ih.2
      · have h2 : motherLoop 100 (fuel + 1) cyclicView 2 =
            motherLoop 100 fuel cyclicView 1 := rfl
        rw [h2]; exact ih.1

/-- Claim C9 (code_bug evaluation): the ancestry walk has no visited set and
no step limit; on a cyclic view it never reaches a halting condition, so the
rollup does not complete within ANY number of steps — the source loop runs
forever, contradicting the claimed termination within view-size steps. -/
theorem c9_rollup_diverges_on_cyclic_view :
    ∀ wf itf : Nat, rollup 100 wf itf cyclicView = none := by
  intro wf itf
  cases itf with
  | zero => rfl
  | succ n =>
      have hbody : rollupBody 100 wf cyclicView ⟨1, 2, 0, 0⟩ = none := by
        have hm : motherLoop 100 wf cyclicView (1 : Int) = none :=
          (motherLoop_cyclic wf).1
        unfold rollupBody
        rw [show ((⟨1, 2, 0, 0⟩ : RunningProcess).pid) = (1 : Int) from rfl, hm]
      have hstep : rollup 100 wf (n + 1) cyclicView =
          (match rollupBody 100 wf cyclicView ⟨1, 2, 0, 0⟩ with
           | none => none
           | some s' => rollupLoop 100 wf n s' (some 1)) := rfl
      rw [hstep, hbody]

/-! ### View lemmas for the rollup proof -/

theorem vlookup_cons (j : Int) (r : RunningProcess) (s : View) (k : Int) :
    vlookup ((j, r) :: s) k = if j = k then some r else vlookup s k := by
  by_cases h : j = k <;> simp [vlookup, List.find?_cons, h]

theorem vlookup_eq_none_iff (s : View) (k : Int) :
    vlookup s k = none ↔ k ∉ s.map (fun e => e.1) := by
  induction s with
  | nil => simp [vlookup]
  | cons e s ih =>
      obtain ⟨j, r⟩ := e
      rw [vlookup_cons]
      by_cases h : j = k
      · subst h; simp
      · simp [h, ih, Ne.symm h]

theorem vlookup_isSome_iff (s : View) (k : Int) :
    (vlookup s k).isSome = true ↔ k ∈ s.map (fun e => e.1) := by
  rw [Option.isSome_iff_ne_none, ne_eq, vlookup_eq_none_iff, not_not]

theorem vlookup_mem (s : View) (k : Int) (r : RunningProcess)
    (h : vlookup s k = some r) : (k, r) ∈ s := by
  induction s with
  | nil => simp [vlookup] at h
  | cons e s ih =>
      obtain ⟨j, q⟩ := e
      rw [vlookup_cons] at h
      by_cases hj : j = k
      · rw [if_pos hj] at h
        cases h
        subst hj
        simp
      · rw [if_neg hj] at h
        simp [ih h]

theorem keys_nodup (view : View)
    (hsort : List.Pairwise (fun a b => a.1 < b.1) view) :
    (view.map (fun e => e.1)).Nodup := by
  have hp : List.Pairwise (fun a b => (a : Int) ≠ b) (view.map (fun e => e.1)) := by
    rw [List.pairwise_map]
    exact hsort.imp (fun h => ne_of_lt h)
  exact hp

theorem vlookup_of_mem (s : View) (hnd : (s.map (fun e => e.1)).Nodup)
    (k : Int) (r : RunningProcess) (h : (k, r) ∈ s) : vlookup s k = some r := by
  induction s with
  | nil => simp at h
  | cons e s ih =>
      obtain ⟨j, q⟩ := e
      simp only [List.map_cons, List.nodup_cons] at hnd
      rw [vlookup_cons]
      rcases List.mem_cons.mp h with he | hmem
      · cases he
        simp
      · have hk : k ∈ s.map (fun e => e.1) :=
          List.mem_map.mpr ⟨(k, r), hmem, rfl⟩
        have hj : j ≠ k := fun hj => hnd.1 (hj ▸ hk)
        rw [if_neg hj]
        exact ih hnd.2 hmem

theorem keys_updateAt (s : View) (k : Int) (f : RunningProcess → RunningProcess) :
    (updateAt s k f).map (fun e => e.1) = s.map (fun e => e.1) := by
  induction s with
  | nil => rfl
  | cons e s ih =>
      by_cases h : e.1 = k <;> simp [updateAt, h] <;>
        simpa [updateAt] using ih

theorem vlookup_updateAt (s : View) (k : Int)
    (f : RunningProcess → RunningProcess) (q : Int) :
    vlookup (updateAt s k f) q =
      if q = k then (vlookup s q).map f else vlookup s q := by
  induction s with
  | nil => by_cases h : q = k <;> simp [updateAt, vlookup, h]
  | cons e s ih =>
      obtain ⟨j, r⟩ := e
      have hcons : updateAt ((j, r) :: s) k f =
          (if j = k then (j, f r) else (j, r)) :: updateAt s k f := by
        simp [updateAt]
      rw [hcons]
      by_cases hjk : j = k
      · rw [if_pos hjk]
        rw [vlookup_cons, vlookup_cons]
        by_cases hjq : j = q
        · have hqk : q = k := by omega
          simp [hjq, hqk]
        · have : vlookup (updateAt s k f) q =
              if q = k then (vlookup s q).map f else vlookup s q := ih
          simp [hjq, this]
      · rw [if_neg hjk]
        rw [vlookup_cons, vlookup_cons]
        by_cases hjq : j = q
        · have hqk : ¬ (q = k) := by omega
          simp [hjq, hqk]
        · simp [hjq, ih]

theorem ensure_of_mem (s : View) (k : Int)
    (h : k ∈ s.map (fun e => e.1)) : ensure s k = s := by
  unfold ensure
  rw [if_pos ((vlookup_isSome_iff s k).mpr h)]

/-! ### The walk on well-formed views -/

/-- State `s` agrees with the original view on keys and on the pid/ppid
fields of every entry (the rollup only mutates rss/majflt). -/
def SamePP (s view : View) : Prop :=
  s.map (fun e => e.1) = view.map (fun e => e.1) ∧
  ∀ k, (vlookup s k).map (fun r => (r.pid, r.ppid)) =
       (vlookup view k).map (fun r => (r.pid, r.ppid))

/-- On a ppid-closed view, the stateful walk from an in-view key equals the
pure chase and leaves the state untouched. -/
theorem motherLoop_eq_chase (view : View) (me : Int)
    (hclosed : ∀ e ∈ view, e.2.ppid = 0 ∨ e.2.ppid = me ∨
      e.2.ppid ∈ view.map (fun e2 => e2.1)) :
    ∀ (fuel : Nat) (s : View), SamePP s view →
      ∀ m, m ∈ view.map (fun e => e.1) →
        motherLoop me fuel s m =
          (chaseSpec view me fuel m).map (fun h => (s, h)) := by
  intro fuel
  induction fuel with
  | zero => intro s _ m _; rfl
  | succ fuel ih =>
      intro s hs m hm
      obtain ⟨hkeys, hpp⟩ := hs
      by_cases hm0 : m = 0
      · subst hm0
        rfl
      · obtain ⟨r, hr⟩ : ∃ r, vlookup view m = some r := by
          cases hv : vlookup view m with
          | none => exact absurd ((vlookup_eq_none_iff view m).mp hv) (by simp [hm])
          | some r => exact ⟨r, rfl⟩
        obtain ⟨rs, hvs, hpid, hppid⟩ :
            ∃ rs, vlookup s m = some rs ∧ rs.pid = r.pid ∧ rs.ppid = r.ppid := by
          have hk := hpp m
          rw [hr] at hk
          cases hvs : vlookup s m with
          | none => rw [hvs] at hk; simp at hk
          | some rs =>
              rw [hvs] at hk
              have hk2 : (rs.pid, rs.ppid) = (r.pid, r.ppid) := by
                simpa using hk
              have h1 : rs.pid = r.pid := congrArg Prod.fst hk2
              have h2 : rs.ppid = r.ppid := congrArg Prod.snd hk2
              exact ⟨rs, rfl, h1, h2⟩
        have hens : ensure s m = s := ensure_of_mem s m (by rw [hkeys]; exact hm)
        have hstepM : motherLoop me (fuel + 1) s m =
            (if rs.ppid = 0 ∨ rs.ppid = me then some (s, m)
             else motherLoop me fuel s rs.ppid) := by
          simp [motherLoop, hm0, hens, getE, hvs]
        have hstepC : chaseSpec view me (fuel + 1) m =
            (if r.ppid = 0 ∨ r.ppid = me then some m
             else chaseSpec view me fuel r.ppid) := by
          simp [chaseSpec, hm0, hr]
        rw [hstepM, hstepC, hppid]
        by_cases hh : r.ppid = 0 ∨ r.ppid = me
        · simp [hh]
        · rw [if_neg hh, if_neg hh]
          have hmem2 : r.ppid ∈ view.map (fun e => e.1) := by
            have hcl := hclosed (m, r) (vlookup_mem view m r hr)
            simp only at hcl
            rcases hcl with h0 | hme | hin
            · exact absurd (Or.inl h0) hh
            · exact absurd (Or.inr hme) hh
            · exact hin
          exact ih s ⟨hkeys, hpp⟩ r.ppid hmem2

/-- Every successful chase from an in-view key halts at an in-view key whose
ppid is 0 or the supervisor's pid. -/
theorem chase_halts_at (view : View) (me : Int)
    (hpos : ∀ e ∈ view, 0 < e.1)
    (hclosed : ∀ e ∈ view, e.2.ppid = 0 ∨ e.2.ppid = me ∨
      e.2.ppid ∈ view.map (fun e2 => e2.1)) :
    ∀ (fuel : Nat) (m h : Int), m ∈ view.map (fun e => e.1) →
      chaseSpec view me fuel m = some h →
      h ∈ view.map (fun e => e.1) ∧
        ∃ rh, vlookup view h = some rh ∧ (rh.ppid = 0 ∨ rh.ppid = me) := by
  intro fuel
  induction fuel with
  | zero => intro m h _ hc; cases hc
  | succ fuel ih =>
      intro m h hm hc
      have hm0 : m ≠ 0 := by
        obtain ⟨e, he, hek⟩ := List.mem_map.mp hm
        have := hpos e he
        omega
      obtain ⟨r, hr⟩ : ∃ r, vlookup view m = some r := by
        cases hv : vlookup view m with
        | none => exact absurd ((vlookup_eq_none_iff view m).mp hv) (by simp [hm])
        | some r => exact ⟨r, rfl⟩
      rw [show chaseSpec view me (fuel + 1) m =
          (if m = 0 then some m
           else match vlookup view m with
           | none => some m
           | some r => if r.ppid = 0 ∨ r.ppid = me then some m
                       else chaseSpec view me fuel r.ppid) from rfl] at hc
      rw [if_neg hm0, hr] at hc
      have hc2 : (if r.ppid = 0 ∨ r.ppid = me then some m
                  else chaseSpec view me fuel r.ppid) = some h := hc
      by_cases hh : r.ppid = 0 ∨ r.ppid = me
      · rw [if_pos hh] at hc2
        cases hc2
        exact ⟨hm, r, hr, hh⟩
      · rw [if_neg hh] at hc2
        replace hc := hc2
        have hmem2 : r.ppid ∈ view.map (fun e => e.1) := by
          have hcl := hclosed (m, r) (vlookup_mem view m r hr)
          simp only at hcl
          rcases hcl with h0 | hme | hin
          · exact absurd (Or.inl h0) hh
          · exact absurd (Or.inr hme) hh
          · exact hin
        exact ih r.ppid h hmem2 hc

/-- A halting key chases to itself in one step. -/
theorem chase_self (view : View) (me : Int) (h : Int) (rh : RunningProcess)
    (hr : vlookup view h = some rh) (hhalt : rh.ppid = 0 ∨ rh.ppid = me)
    (fuel : Nat) : chaseSpec view me (fuel + 1) h = some h := by
  rw [show chaseSpec view me (fuel + 1) h =
      (if h = 0 then some h
       else match vlookup view h with
       | none => some h
       | some r => if r.ppid = 0 ∨ r.ppid = me then some h
                   else chaseSpec view me fuel r.ppid) from rfl]
  by_cases h0 : h = 0
  · rw [if_pos h0]
  · rw [if_neg h0, hr]
    show (if rh.ppid = 0 ∨ rh.ppid = me then some h
          else chaseSpec view me fuel rh.ppid) = some h
    rw [if_pos hhalt]

/-! ### Attribution sums and map-iteration order -/

/-- Entry `e` is attributed to key `P`: its ancestry chain halts at `P` and it
is not `P`'s own entry (the guard `observed[mother].pid != i->second.pid`). -/
def attributedTo (view : View) (me : Int) (P : Int)
    (e : Int × RunningProcess) : Bool :=
  decide (e.1 ≠ P) && decide (chaseSpec view me (view.length + 1) e.1 = some P)

/-- Total sampled rss of the entries attributed to `P`. -/
def descRss (view : View) (me P : Int) : Int :=
  ((view.filter (attributedTo view me P)).map (fun e => e.2.rss)).sum

/-- Total sampled majflt of the entries attributed to `P`. -/
def descMaj (view : View) (me P : Int) : Int :=
  ((view.filter (attributedTo view me P)).map (fun e => e.2.majflt)).sum

/-- Is key `j` at or before the iterator position `cur`? -/
def leCut (cur : Option Int) (j : Int) : Bool :=
  match cur with
  | none => false
  | some c => decide (j ≤ c)

/-- Partial attribution sums over the entries already visited (keys `≤ cur`). -/
def addRssUpTo (view : View) (me : Int) (P : Int) (cur : Option Int) : Int :=
  ((view.filter (fun e => attributedTo view me P e && leCut cur e.1)).map
    (fun e => e.2.rss)).sum

def addMajUpTo (view : View) (me : Int) (P : Int) (cur : Option Int) : Int :=
  ((view.filter (fun e => attributedTo view me P e && leCut cur e.1)).map
    (fun e => e.2.majflt)).sum

theorem addUpTo_none (view : View) (me P : Int) :
    addRssUpTo view me P none = 0 ∧ addMajUpTo view me P none = 0 := by
  have hf : view.filter
      (fun e => attributedTo view me P e && leCut none e.1) = [] := by
    rw [List.filter_eq_nil_iff]
    intro a _
    simp [leCut]
  constructor <;> simp [addRssUpTo, addMajUpTo, hf]

theorem addUpTo_full (view : View) (me P : Int) (cur : Option Int)
    (hall : ∀ e ∈ view, leCut cur e.1 = true) :
    addRssUpTo view me P cur = descRss view me P ∧
    addMajUpTo view me P cur = descMaj view me P := by
  have hf : view.filter (fun e => attributedTo view me P e && leCut cur e.1) =
      view.filter (attributedTo view me P) := by
    apply List.filter_congr
    intro e he
    rw [hall e he, Bool.and_true]
  constructor <;> simp [addRssUpTo, addMajUpTo, descRss, descMaj, hf]

theorem addUpTo_step (view done todo' : View) (e : Int × RunningProcess)
    (me : Int) (Q : Int) (cur : Option Int)
    (hview : view = done ++ e :: todo')
    (hc1 : ∀ x ∈ done, leCut cur x.1 = true)
    (hc2 : ∀ x ∈ e :: todo', leCut cur x.1 = false)
    (hd1 : ∀ x ∈ done, leCut (some e.1) x.1 = true)
    (hd2 : ∀ x ∈ todo', leCut (some e.1) x.1 = false) :
    addRssUpTo view me Q (some e.1) =
      addRssUpTo view me Q cur +
        (if attributedTo view me Q e then e.2.rss else 0) ∧
    addMajUpTo view me Q (some e.1) =
      addMajUpTo view me Q cur +
        (if attributedTo view me Q e then e.2.majflt else 0) := by
  have hself : leCut (some e.1) e.1 = true := by simp [leCut]
  have key : ∀ (A : Int × RunningProcess → Bool) (g : Int × RunningProcess → Int),
      ((view.filter (fun x => A x && leCut (some e.1) x.1)).map g).sum =
      ((view.filter (fun x => A x && leCut cur x.1)).map g).sum +
        (if A e then g e else 0) := by
    intro A g
    rw [hview]
    have hL : (done ++ e :: todo').filter
        (fun x => A x && leCut (some e.1) x.1) =
        done.filter A ++ (if A e then [e] else []) := by
      rw [List.filter_append, List.filter_cons]
      have h1 : done.filter (fun x => A x && leCut (some e.1) x.1) =
          done.filter A := by
        apply List.filter_congr
        intro x hx
        rw [hd1 x hx, Bool.and_true]
      have h2 : todo'.filter (fun x => A x && leCut (some e.1) x.1) = [] := by
        rw [List.filter_eq_nil_iff]
        intro x hx
        simp [hd2 x hx]
      rw [h1, h2, hself, Bool.and_true]
    have hR : (done ++ e :: todo').filter
        (fun x => A x && leCut cur x.1) = done.filter A := by
      rw [List.filter_append, List.filter_cons]
      have h1 : done.filter (fun x => A x && leCut cur x.1) =
          done.filter A := by
        apply List.filter_congr
        intro x hx
        rw [hc1 x hx, Bool.and_true]
      have h2 : todo'.filter (fun x => A x && leCut cur x.1) = [] := by
        rw [List.filter_eq_nil_iff]
        intro x hx
        simp [hc2 x (by simp [hx])]
      have h3 : leCut cur e.1 = false := hc2 e (by simp)
      rw [h1, h2, h3, Bool.and_false, if_neg (by simp), List.append_nil]
    rw [hL, hR, List.map_append, List.sum_append]
    by_cases ha : A e
    · rw [if_pos ha, if_pos ha]
      simp
    · rw [if_neg ha, if_neg ha]
      simp
  exact ⟨key (attributedTo view me Q) (fun x => x.2.rss),
    key (attributedTo view me Q) (fun x => x.2.majflt)⟩

theorem pred_eq_not_leCut (cur : Option Int) (j : Int) :
    nkPred cur j = !(leCut cur j) := by
  cases cur with
  | none => rfl
  | some c =>
      show decide (c < j) = !(decide (j ≤ c))
      by_cases h : c < j
      · rw [decide_eq_true h, decide_eq_false (by omega), Bool.not_false]
      · rw [decide_eq_false h, decide_eq_true (show j ≤ c by omega),
          Bool.not_true]

theorem foldlMin_of_min (k : Int) (l : List Int) (hall : ∀ j ∈ l, k ≤ j) :
    l.foldl (fun acc j =>
      match acc with
      | none => some j
      | some a => if j < a then some j else some a) (some k) = some k := by
  induction l with
  | nil => rfl
  | cons j l ih =>
      have hkj : k ≤ j := hall j (by simp)
      have hstep : (match some k with
          | none => some j
          | some a => if j < a then some j else some a) = some k := by
        show (if j < k then some j else some k) = some k
        rw [if_neg (by omega)]
      rw [List.foldl_cons, hstep]
      exact ih (fun x hx => hall x (by simp [hx]))

/-- On a state whose keys are those of `view = done ++ e :: todo'`, with all
of `done` at or before the cursor and the rest strictly after it, the map
iterator's next position is `e`'s key. -/
theorem nextKey_split (s view done todo' : View) (e : Int × RunningProcess)
    (cur : Option Int)
    (hview : view = done ++ e :: todo')
    (hkeys : s.map (fun x => x.1) = view.map (fun x => x.1))
    (hc1 : ∀ x ∈ done, leCut cur x.1 = true)
    (hc2 : ∀ x ∈ e :: todo', leCut cur x.1 = false)
    (hsorted : ∀ x ∈ todo', e.1 < x.1) :
    nextKey s cur = some e.1 := by
  unfold nextKey
  rw [hkeys, hview]
  have hfilter : ((done ++ e :: todo').map (fun x => x.1)).filter
      (nkPred cur) = e.1 :: todo'.map (fun x => x.1) := by
    simp only [List.map_append, List.map_cons, List.filter_append,
      List.filter_cons]
    have h1 : (done.map (fun x => x.1)).filter (nkPred cur) = [] := by
      rw [List.filter_eq_nil_iff]
      intro j hj
      obtain ⟨x, hx, hxj⟩ := List.mem_map.mp hj
      rw [pred_eq_not_leCut]
      subst hxj
      simp [hc1 x hx]
    have h2 : (todo'.map (fun x => x.1)).filter (nkPred cur) =
        todo'.map (fun x => x.1) := by
      rw [List.filter_eq_self]
      intro j hj
      obtain ⟨x, hx, hxj⟩ := List.mem_map.mp hj
      rw [pred_eq_not_leCut]
      subst hxj
      simp [hc2 x (by simp [hx])]
    have h3 : nkPred cur e.1 = true := by
      rw [pred_eq_not_leCut]
      simp [hc2 e (by simp)]
    rw [h1, h2, h3]
    simp
  rw [hfilter]
  rw [List.foldl_cons]
  exact foldlMin_of_min e.1 (todo'.map (fun x => x.1))
    (by intro j hj
        obtain ⟨x, hx, hxj⟩ := List.mem_map.mp hj
        subst hxj
        exact le_of_lt (hsorted x hx))

/-- When every key is at or before the cursor the iterator is exhausted. -/
theorem nextKey_done (s view : View) (cur : Option Int)
    (hkeys : s.map (fun x => x.1) = view.map (fun x => x.1))
    (hall : ∀ x ∈ view, leCut cur x.1 = true) :
    nextKey s cur = none := by
  unfold nextKey
  rw [hkeys]
  have hfilter : (view.map (fun x => x.1)).filter (nkPred cur) = [] := by
    rw [List.filter_eq_nil_iff]
    intro j hj
    obtain ⟨x, hx, hxj⟩ := List.mem_map.mp hj
    rw [pred_eq_not_leCut]
    subst hxj
    simp [hall x hx]
  rw [hfilter]
  rfl

/-! ### The rollup body on well-formed states -/

theorem rollupBody_step (view : View) (me : Int)
    (hkp : ∀ e ∈ view, e.2.pid = e.1)
    (hpos : ∀ e ∈ view, 0 < e.1)
    (hclosed : ∀ e ∈ view, e.2.ppid = 0 ∨ e.2.ppid = me ∨
      e.2.ppid ∈ view.map (fun e2 => e2.1))
    (s : View)
    (hkeys : s.map (fun e => e.1) = view.map (fun e => e.1))
    (hpp : ∀ k, (vlookup s k).map (fun r => (r.pid, r.ppid)) =
      (vlookup view k).map (fun r => (r.pid, r.ppid)))
    (xs : RunningProcess) (k : Int)
    (hxs : vlookup s k = some xs) (hxpid : xs.pid = k)
    (h : Int) (hchase : chaseSpec view me (view.length + 1) k = some h) :
    rollupBody me (view.length + 1) s xs =
      some (if h = k then s
            else updateAt s h (fun r =>
              { r with rss := r.rss + xs.rss,
                       majflt := r.majflt + xs.majflt })) := by
  have hkmem : k ∈ view.map (fun e => e.1) := by
    rw [← hkeys]
    exact (vlookup_isSome_iff s k).mp (by simp [hxs])
  have hml : motherLoop me (view.length + 1) s k =
      (chaseSpec view me (view.length + 1) k).map (fun hh => (s, hh)) :=
    motherLoop_eq_chase view me hclosed (view.length + 1) s ⟨hkeys, hpp⟩ k hkmem
  rw [hchase] at hml
  obtain ⟨hhmem, rh, hrh, hhalt⟩ :=
    chase_halts_at view me hpos hclosed (view.length + 1) k h hkmem hchase
  have hens : ensure s h = s := ensure_of_mem s h (by rw [hkeys]; exact hhmem)
  obtain ⟨rsh, hvsh, hshpid⟩ : ∃ rsh, vlookup s h = some rsh ∧ rsh.pid = h := by
    have hk := hpp h
    rw [hrh] at hk
    cases hvs : vlookup s h with
    | none => rw [hvs] at hk; simp at hk
    | some rsh =>
        rw [hvs] at hk
        have hk2 : (rsh.pid, rsh.ppid) = (rh.pid, rh.ppid) := by simpa using hk
        have h1 : rsh.pid = rh.pid := congrArg Prod.fst hk2
        have h2 : rh.pid = h := hkp (h, rh) (vlookup_mem view h rh hrh)
        exact ⟨rsh, rfl, by rw [h1]; exact h2⟩
  have hred : rollupBody me (view.length + 1) s xs =
      (if (getE (ensure s h) h).pid ≠ xs.pid then
        some (updateAt (ensure s h) h (fun r =>
          { r with rss := r.rss + xs.rss, majflt := r.majflt + xs.majflt }))
      else some (ensure s h)) := by
    unfold rollupBody
    rw [hxpid, hml]
    rfl
  rw [hred, hens]
  have hgp : (getE s h).pid = h := by simp [getE, hvsh, hshpid]
  rw [hgp, hxpid]
  by_cases hcase : h = k
  · rw [if_neg (by simp [hcase]), if_pos hcase]
  · rw [if_pos hcase, if_neg hcase]

/-! ### The rollup loop invariant -/

/-- The state has the view's keys, and each entry equals the view's entry
plus the attribution sums over the already-visited prefix. -/
def InvR (view : View) (me : Int) (s : View) (cur : Option Int) : Prop :=
  s.map (fun e => e.1) = view.map (fun e => e.1) ∧
  ∀ k r, vlookup view k = some r →
    vlookup s k = some { r with rss := r.rss + addRssUpTo view me k cur,
                                majflt := r.majflt + addMajUpTo view me k cur }

theorem InvR_pp (view : View) (me : Int) (s : View) (cur : Option Int)
    (hinv : InvR view me s cur) :
    ∀ k, (vlookup s k).map (fun r => (r.pid, r.ppid)) =
         (vlookup view k).map (fun r => (r.pid, r.ppid)) := by
  intro k
  cases hv : vlookup view k with
  | none =>
      have hs : vlookup s k = none := by
        rw [vlookup_eq_none_iff, hinv.1]
        exact (vlookup_eq_none_iff view k).mp hv
      rw [hs]
  | some r =>
      rw [hinv.2 k r hv]
      rfl

/-- Starting state: the sampled view itself, nothing visited. -/
theorem InvR_init (view : View) (me : Int) : InvR view me view none := by
  refine ⟨rfl, ?_⟩
  intro k r hv
  rw [hv]
  have h0 := addUpTo_none view me k
  rw [h0.1, h0.2]
  simp

/-- The main rollup induction: processing the remaining suffix of a
well-formed view preserves the invariant and ends with every entry holding
its sampled values plus the full attribution sums. -/
theorem rollupLoop_inv (view : View) (me : Int)
    (hsort : List.Pairwise (fun a b => a.1 < b.1) view)
    (hkp : ∀ e ∈ view, e.2.pid = e.1)
    (hpos : ∀ e ∈ view, 0 < e.1)
    (hclosed : ∀ e ∈ view, e.2.ppid = 0 ∨ e.2.ppid = me ∨
      e.2.ppid ∈ view.map (fun e2 => e2.1))
    (hacyc : ∀ e ∈ view, (chaseSpec view me (view.length + 1) e.1).isSome) :
    ∀ (todo done s : View) (cur : Option Int) (n : Nat),
      view = done ++ todo →
      todo.length + 1 ≤ n →
      (∀ x ∈ done, leCut cur x.1 = true) →
      (∀ x ∈ todo, leCut cur x.1 = false) →
      InvR view me s cur →
      ∃ sf, rollupLoop me (view.length + 1) n s cur = some sf ∧
        ∀ k r, vlookup view k = some r →
          vlookup sf k = some { r with rss := r.rss + descRss view me k,
                                       majflt := r.majflt + descMaj view me k } := by
  intro todo
  induction todo with
  | nil =>
      intro done s cur n hview hn hc1 _hc2 hinv
      obtain ⟨n', rfl⟩ : ∃ n', n = n' + 1 := ⟨n - 1, by omega⟩
      have hdone : done = view := by
        rw [hview, List.append_nil]
      have hnk : nextKey s cur = none :=
        nextKey_done s view cur hinv.1
          (fun x hx => hc1 x (by rw [hdone]; exact hx))
      refine ⟨s, ?_, ?_⟩
      · show rollupLoop me (view.length + 1) (n' + 1) s cur = some s
        unfold rollupLoop
        rw [hnk]
      · intro k r hv
        rw [hinv.2 k r hv]
        have hfull := addUpTo_full view me k cur
          (fun x hx => hc1 x (by rw [hdone]; exact hx))
        rw [hfull.1, hfull.2]
  | cons e todo' ih =>
      intro done s cur n hview hn hc1 hc2 hinv
      obtain ⟨n', rfl⟩ : ∃ n', n = n' + 1 := ⟨n - 1, by omega⟩
      have hsort' := hview ▸ hsort
      have hsplit := List.pairwise_append.mp hsort'
      have hlt1 : ∀ x ∈ done, x.1 < e.1 := fun x hx => hsplit.2.2 x hx e (by simp)
      have hlt2 : ∀ x ∈ todo', e.1 < x.1 := (List.pairwise_cons.mp hsplit.2.1).1
      have hd1 : ∀ x ∈ done ++ [e], leCut (some e.1) x.1 = true := by
        intro x hx
        rcases List.mem_append.mp hx with hx | hx
        · show decide (x.1 ≤ e.1) = true
          simp only [decide_eq_true_eq]
          exact le_of_lt (hlt1 x hx)
        · simp only [List.mem_singleton] at hx
          subst hx
          show decide (x.1 ≤ x.1) = true
          simp
      have hd1' : ∀ x ∈ done, leCut (some e.1) x.1 = true :=
        fun x hx => hd1 x (by simp [hx])
      have hd2 : ∀ x ∈ todo', leCut (some e.1) x.1 = false := by
        intro x hx
        show decide (x.1 ≤ e.1) = false
        simp only [decide_eq_false_iff_not]
        have := hlt2 x hx
        omega
      have hemem : e ∈ view := by rw [hview]; simp
      have hvve : vlookup view e.1 = some e.2 :=
        vlookup_of_mem view (keys_nodup view hsort) e.1 e.2 hemem
      have hvse := hinv.2 e.1 e.2 hvve
      have hxpid : ({ e.2 with
          rss := e.2.rss + addRssUpTo view me e.1 cur,
          majflt := e.2.majflt + addMajUpTo view me e.1 cur } :
            RunningProcess).pid = e.1 := by
        have := hkp e hemem
        simpa using this
      obtain ⟨h, hchase⟩ :
          ∃ h, chaseSpec view me (view.length + 1) e.1 = some h := by
        have hS := hacyc e hemem
        cases hcs : chaseSpec view me (view.length + 1) e.1 with
        | none => rw [hcs] at hS; simp at hS
        | some h => exact ⟨h, rfl⟩
      have hb := rollupBody_step view me hkp hpos hclosed s hinv.1
        (InvR_pp view me s cur hinv) _ e.1 hvse hxpid h hchase
      have hnk : nextKey s cur = some e.1 :=
        nextKey_split s view done todo' e cur hview hinv.1 hc1 hc2 hlt2
      have hstep := addUpTo_step view done todo' e me
      by_cases hcase : h = e.1
      · rw [if_pos hcase] at hb
        have hattr : ∀ Q, attributedTo view me Q e = false := by
          intro Q
          unfold attributedTo
          by_cases hq : Q = e.1
          · subst hq
            simp
          · have hne : chaseSpec view me (view.length + 1) e.1 ≠ some Q := by
              rw [hchase, hcase]
              intro hcontra
              exact hq (Option.some.inj hcontra).symm
            simp [hne]
        have hinv2 : InvR view me s (some e.1) := by
          refine ⟨hinv.1, ?_⟩
          intro k r hv
          rw [hinv.2 k r hv]
          have hs := hstep k cur hview hc1 hc2 hd1' hd2
          rw [hs.1, hs.2, hattr k]
          simp
        obtain ⟨sf, hsf, hprop⟩ := ih (done ++ [e]) s (some e.1) n'
          (by rw [hview]; simp)
          (by simp only [List.length_cons] at hn; omega)
          hd1 hd2 hinv2
        refine ⟨sf, ?_, hprop⟩
        show rollupLoop me (view.length + 1) (n' + 1) s cur = some sf
        unfold rollupLoop
        rw [hnk]
        show (match vlookup s e.1 with
          | none => some s
          | some x =>
              match rollupBody me (view.length + 1) s x with
              | none => none
              | some s' =>
                  rollupLoop me (view.length + 1) n' s' (some e.1)) = some sf
        rw [hvse]
        show (match rollupBody me (view.length + 1) s
            ({ e.2 with rss := e.2.rss + addRssUpTo view me e.1 cur,
                        majflt := e.2.majflt + addMajUpTo view me e.1 cur } :
              RunningProcess) with
          | none => none
          | some s' => rollupLoop me (view.length + 1) n' s' (some e.1)) = some sf
        rw [hb]
        exact hsf
      · rw [if_neg hcase] at hb
        have hA0 : addRssUpTo view me e.1 cur = 0 ∧
            addMajUpTo view me e.1 cur = 0 := by
          have hfilter : view.filter
              (fun x => attributedTo view me e.1 x && leCut cur x.1) = [] := by
            rw [List.filter_eq_nil_iff]
            intro x hx
            suffices hsuff : attributedTo view me e.1 x = false by simp [hsuff]
            unfold attributedTo
            by_cases hcx : chaseSpec view me (view.length + 1) x.1 = some e.1
            · have hxmem : x.1 ∈ view.map (fun e2 => e2.1) :=
                List.mem_map.mpr ⟨x, hx, rfl⟩
              obtain ⟨_, rh, hrh, hhalt⟩ :=
                chase_halts_at view me hpos hclosed (view.length + 1)
                  x.1 e.1 hxmem hcx
              have hself : chaseSpec view me (view.length + 1) e.1 = some e.1 :=
                chase_self view me e.1 rh hrh hhalt view.length
              exact absurd (Option.some.inj (hself.symm.trans hchase))
                (fun hh => hcase hh.symm)
            · simp [hcx]
          constructor <;> simp [addRssUpTo, addMajUpTo, hfilter]
        have hxs_eq : ({ e.2 with
            rss := e.2.rss + addRssUpTo view me e.1 cur,
            majflt := e.2.majflt + addMajUpTo view me e.1 cur } :
              RunningProcess) = e.2 := by
          rw [hA0.1, hA0.2]
          simp
        rw [hxs_eq] at hb
        have hinv2 : InvR view me
            (updateAt s h (fun r =>
              { r with rss := r.rss + e.2.rss,
                       majflt := r.majflt + e.2.majflt }))
            (some e.1) := by
          constructor
          · rw [keys_updateAt]; exact hinv.1
          · intro k r hv
            rw [vlookup_updateAt]
            have hs := hstep k cur hview hc1 hc2 hd1' hd2
            by_cases hk : k = h
            · subst hk
              rw [if_pos rfl, hinv.2 k r hv]
              have hattr : attributedTo view me k e = true := by
                unfold attributedTo
                have h1 : e.1 ≠ k := fun hh => hcase hh.symm
                simp [hchase, h1]
              rw [hs.1, hs.2, hattr]
              simp [add_assoc]
            · rw [if_neg hk, hinv.2 k r hv]
              have hattr : attributedTo view me k e = false := by
                unfold attributedTo
                have hne : chaseSpec view me (view.length + 1) e.1 ≠ some k := by
                  rw [hchase]
                  intro hcontra
                  exact hk (Option.some.inj hcontra).symm
                simp [hne]
              rw [hs.1, hs.2, hattr]
              simp
        obtain ⟨sf, hsf, hprop⟩ := ih (done ++ [e]) _ (some e.1) n'
          (by rw [hview]; simp)
          (by simp only [List.length_cons] at hn; omega)
          hd1 hd2 hinv2
        refine ⟨sf, ?_, hprop⟩
        show rollupLoop me (view.length + 1) (n' + 1) s cur = some sf
        unfold rollupLoop
        rw [hnk]
        show (match vlookup s e.1 with
          | none => some s
          | some x =>
              match rollupBody me (view.length + 1) s x with
              | none => none
              | some s' =>
                  rollupLoop me (view.length + 1) n' s' (some e.1)) = some sf
        rw [hvse]
        show (match rollupBody me (view.length + 1) s
            ({ e.2 with rss := e.2.rss + addRssUpTo view me e.1 cur,
                        majflt := e.2.majflt + addMajUpTo view me e.1 cur } :
              RunningProcess) with
          | none => none
          | some s' => rollupLoop me (view.length + 1) n' s' (some e.1)) = some sf
        rw [hxs_eq, hb]
        exact hsf

/-- Claim C5: on an acyclic well-formed single-cycle view (std::map order,
keys = pids, positive pids, parent links in-view or halting), after the
rollup the written-back RSS of a managed process present in the view equals
its own sampled rss plus the sampled rss of every entry whose ppid-ancestry
chain (halting at pid 0, ppid 0 or ppid = supervisor pid) terminates at it;
likewise for the major-fault totals. -/
theorem c5_rollup_descendant_sums (view : View) (me : Int)
    (hsort : List.Pairwise (fun a b => a.1 < b.1) view)
    (hkp : ∀ e ∈ view, e.2.pid = e.1)
    (hpos : ∀ e ∈ view, 0 < e.1)
    (hclosed : ∀ e ∈ view, e.2.ppid = 0 ∨ e.2.ppid = me ∨
      e.2.ppid ∈ view.map (fun e2 => e2.1))
    (hacyc : ∀ e ∈ view, (chaseSpec view me (view.length + 1) e.1).isSome)
    (P : Int) (rP : RunningProcess) (hmem : (P, rP) ∈ view)
    (p : Process) (hp : p.pid = P) :
    (rollup me (view.length + 1) (view.length + 1) view).map
        (fun sf => writeback sf [p]) =
      some [{ p with currentRss := rP.rss + descRss view me P,
                     recentPageFaults := rP.majflt + descMaj view me P }] := by
  obtain ⟨sf, hsf, hprop⟩ := rollupLoop_inv view me hsort hkp hpos hclosed hacyc
    view [] view none (view.length + 1) (by simp) (by omega)
    (by intro x hx; simp at hx)
    (by intro x _; rfl)
    (InvR_init view me)
  rw [show rollup me (view.length + 1) (view.length + 1) view =
      rollupLoop me (view.length + 1) (view.length + 1) view none from rfl, hsf]
  show some (writeback sf [p]) =
    some [{ p with currentRss := rP.rss + descRss view me P,
                   recentPageFaults := rP.majflt + descMaj view me P }]
  have hvP : vlookup view P = some rP :=
    vlookup_of_mem view (keys_nodup view hsort) P rP hmem
  have hsfP := hprop P rP hvP
  unfold writeback
  simp [hp, hsfP]

/-- A concrete three-entry view: pid 2 is a child of the supervisor (me =
100), pid 3 a child of 2, pid 4 a child of 3. -/
def c5WitnessView : View :=
  [(2, ⟨2, 100, 5, 10⟩), (3, ⟨3, 2, 7, 20⟩), (4, ⟨4, 3, 11, 40⟩)]

/-- Witness for C5 at the concrete view: the managed process with pid 2 is
written back rss 10+20+40 = 70 and faults 5+7+11 = 23. -/
theorem c5_rollup_descendant_sums_witness :
    (rollup 100 (c5WitnessView.length + 1) (c5WitnessView.length + 1)
        c5WitnessView).map
        (fun sf => writeback sf [⟨2, 0, 0, 1, 50, 30⟩]) =
      some [⟨2, 70, 23, 1, 50, 30⟩] := by
  exact c5_rollup_descendant_sums c5WitnessView 100
    (by decide) (by decide) (by decide) (by decide) (by decide)
    2 ⟨2, 100, 5, 10⟩ (by decide) ⟨2, 0, 0, 1, 50, 30⟩ rfl
